import Mathlib

/-!
Verification of the footnote-resolution engine of the PDF-to-RTF converter
(`function_app_roman.py`).  Text is modelled as `List Char`; page geometry
(float coordinates) is modelled over `ℚ`.  Python dicts become
insertion-ordered association lists.
-/

namespace PdfRtf

/-- Python `\s` whitespace class (ASCII part used by the sources). -/
def isPyWs (c : Char) : Bool :=
  c = ' ' || c = '\t' || c = '\n' || c = '\r' || c = '\x0b' || c = '\x0c'

/-- Python `\d` digit class (ASCII digits). -/
def isDigitChar (c : Char) : Bool :=
  '0' ≤ c && c ≤ '9'

/-- Value of a run of decimal digits, as Python `int` computes it. -/
def digitsToNat (l : List Char) : Nat :=
  l.foldl (fun a c => a * 10 + (c.toNat - '0'.toNat)) 0

/-- The Roman-numeral character class of the source regexes
(`[ivxlcdmIVXLCDM]`). -/
def isRomanChar (c : Char) : Bool :=
  c = 'i' || c = 'v' || c = 'x' || c = 'l' || c = 'c' || c = 'd' || c = 'm' ||
  c = 'I' || c = 'V' || c = 'X' || c = 'L' || c = 'C' || c = 'D' || c = 'M'

/-- Drop up to `n` copies of the character `c` from the front of the list
(the greedy `c{0,n}` regex piece). -/
def dropUpTo (c : Char) : Nat → List Char → List Char
  | 0, l => l
  | _, [] => []
  | n + 1, x :: xs => if x = c then dropUpTo c n xs else x :: xs

/-- Consume the hundreds group `(CM|CD|D?C{0,3})` of the Roman pattern. -/
def chompHundreds : List Char → List Char
  | 'C' :: 'M' :: r => r
  | 'C' :: 'D' :: r => r
  | 'D' :: r => dropUpTo 'C' 3 r
  | l => dropUpTo 'C' 3 l

/-- Consume the tens group `(XC|XL|L?X{0,3})` of the Roman pattern. -/
def chompTens : List Char → List Char
  | 'X' :: 'C' :: r => r
  | 'X' :: 'L' :: r => r
  | 'L' :: r => dropUpTo 'X' 3 r
  | l => dropUpTo 'X' 3 l

/-- Consume the units group `(IX|IV|V?I{0,3})` of the Roman pattern. -/
def chompUnits : List Char → List Char
  | 'I' :: 'X' :: r => r
  | 'I' :: 'V' :: r => r
  | 'V' :: r => dropUpTo 'I' 3 r
  | l => dropUpTo 'I' 3 l

/-- Full anchored match of
`^M{0,4}(CM|CD|D?C{0,3})(XC|XL|L?X{0,3})(IX|IV|V?I{0,3})$` on an uppercase
Roman-letter string. -/
def romanPatternCheck (l : List Char) : Bool :=
  let ms := (l.takeWhile (fun c => c = 'M')).length
  decide (ms ≤ 4) && (chompUnits (chompTens (chompHundreds (l.drop ms)))).isEmpty

/-- `is_roman_numeral`: uppercase the string, require every character to be a
Roman digit, then check the grammar pattern. -/
def is_roman_numeral (s : List Char) : Bool :=
  if s.isEmpty then false
  else
    let u := s.map Char.toUpper
    u.all (fun c => c = 'I' || c = 'V' || c = 'X' || c = 'L' || c = 'C' ||
      c = 'D' || c = 'M') && romanPatternCheck u

/-- The regex tail `(.+)$`: the capture is the maximal run of non-newline
characters, which must be non-empty and be followed by nothing or by a single
final newline. -/
def dotPlusDollar (l : List Char) : Option (List Char) :=
  let r := l.takeWhile (fun c => c ≠ '\n')
  if r.isEmpty then none
  else if l.drop r.length = [] ∨ l.drop r.length = ['\n'] then some r
  else none

/-- The regex tail `\s*(.+)$` with greedy `\s*` and single-step backtracking:
try to consume each leading whitespace character, falling back to letting `.`
match it when the rest cannot. -/
def wsStarCapture : List Char → Option (List Char)
  | [] => none
  | c :: rest =>
    if isPyWs c then
      match wsStarCapture rest with
      | some r => some r
      | none => dotPlusDollar (c :: rest)
    else dotPlusDollar (c :: rest)

/-- `re.match(r'^\s*(\d+)[\.\s]\s*(.+)$', line)`: returns the numeral value
(group 1 through `int`) and the remainder text (group 2). -/
def arabicInitMatch (line : List Char) : Option (Nat × List Char) :=
  let afterWs := line.dropWhile isPyWs
  let digits := afterWs.takeWhile isDigitChar
  if digits.isEmpty then none
  else
    match afterWs.drop digits.length with
    | [] => none
    | c :: rest =>
      if c = '.' || isPyWs c then
        match wsStarCapture rest with
        | some g2 => some (digitsToNat digits, g2)
        | none => none
      else none

/-- `re.match(r'^\s*([ivxlcdmIVXLCDM]+)[\.\s]\s*(.+)$', line)`: returns the
raw matched numeral token (group 1, case preserved) and the remainder
(group 2). -/
def romanInitMatch (line : List Char) : Option (List Char × List Char) :=
  let afterWs := line.dropWhile isPyWs
  let tok := afterWs.takeWhile isRomanChar
  if tok.isEmpty then none
  else
    match afterWs.drop tok.length with
    | [] => none
    | c :: rest =>
      if c = '.' || isPyWs c then
        match wsStarCapture rest with
        | some g2 => some (tok, g2)
        | none => none
      else none

/-- Text is a list of characters. -/
abbrev AText := List Char

/-- Look up a key in an association list (Python dict read). -/
def alistGet {α : Type} [DecidableEq α] (k : α) : List (α × AText) → Option AText
  | [] => none
  | (k', v) :: rest => if k' = k then some v else alistGet k rest

/-- Replace the value stored at an existing key (Python dict assignment to a
present key). -/
def alistSet {α : Type} [DecidableEq α] (k : α) (v : AText) :
    List (α × AText) → List (α × AText)
  | [] => []
  | (k', v') :: rest =>
    if k' = k then (k', v) :: rest else (k', v') :: alistSet k v rest

/-- The source's save pattern: `d[k] += " " + txt` when `k` is present,
`d[k] = txt` otherwise (insertion at the end, as in a Python dict). -/
def dictAdd {α : Type} [DecidableEq α] (k : α) (txt : AText)
    (m : List (α × AText)) : List (α × AText) :=
  match alistGet k m with
  | some old => alistSet k (old ++ ' ' :: txt) m
  | none => m ++ [(k, txt)]

/-- A footnote key: the two numbering spaces are separate. -/
inductive FootKey : Type
  | arabic : Nat → FootKey
  | roman : AText → FootKey
deriving DecidableEq

/-- The two footnote dictionaries (`footnote_definitions` and
`roman_footnote_definitions`). -/
structure Tables : Type where
  arabic : List (Nat × AText)
  roman : List (AText × AText)
deriving DecidableEq, Repr

/-- Flush the currently open footnote (if any) into the tables, as the
save-blocks of `extract_text_with_formatting` do. -/
def flushOpen : Option (FootKey × AText) → Tables → Tables
  | none, t => t
  | some (FootKey.arabic k, txt), t => { t with arabic := dictAdd k txt t.arabic }
  | some (FootKey.roman s, txt), t => { t with roman := dictAdd s txt t.roman }

/-- One footnote-region line of the per-page loop: open a new Arabic entry,
else a new (validated) Roman entry, else continue the open entry, else record
an orphan.  State: (open footnote, tables, orphan list). -/
def procFnLine (pn : Nat) (st : Option (FootKey × AText)) (t : Tables)
    (orph : List (Nat × AText)) (line : AText) :
    Option (FootKey × AText) × Tables × List (Nat × AText) :=
  match arabicInitMatch line with
  | some (k, rest) => (some (FootKey.arabic k, rest), flushOpen st t, orph)
  | none =>
    match romanInitMatch line with
    | some (tok, rest) =>
      if is_roman_numeral tok then
        (some (FootKey.roman tok, rest), flushOpen st t, orph)
      else
        match st with
        | some (key, txt) => (some (key, txt ++ ' ' :: line), t, orph)
        | none => (none, t, orph ++ [(pn, line)])
    | none =>
      match st with
      | some (key, txt) => (some (key, txt ++ ' ' :: line), t, orph)
      | none => (none, t, orph ++ [(pn, line)])

/-- Parse one page's footnote-region lines, starting with no open footnote and
flushing the open footnote at the end of the page. -/
def parsePageLines (pn : Nat) (lines : List AText) (t : Tables)
    (orph : List (Nat × AText)) : Tables × List (Nat × AText) :=
  let fin := lines.foldl
    (fun (acc : Option (FootKey × AText) × Tables × List (Nat × AText)) line =>
      procFnLine pn acc.1 acc.2.1 acc.2.2 line)
    (none, t, orph)
  (flushOpen fin.1 fin.2.1, fin.2.2)

/-- First pass over all pages' footnote-region lines: global tables plus the
accumulated orphan continuation list. -/
def extractFromFootnoteLines (pages : List (List AText)) :
    Tables × List (Nat × AText) :=
  pages.enum.foldl
    (fun (acc : Tables × List (Nat × AText)) pg =>
      parsePageLines pg.1 pg.2 acc.1 acc.2)
    (⟨[], []⟩, [])

/-- Python string `<` on code points (lexicographic). -/
def lexLtB : AText → AText → Bool
  | [], [] => false
  | [], _ :: _ => true
  | _ :: _, [] => false
  | a :: as_, b :: bs =>
    if a.toNat < b.toNat then true
    else if a = b then lexLtB as_ bs
    else false

/-- `sorted(keys)[-1]` on the Roman dictionary: the lexicographically greatest
key, computed by a fold over the key list. -/
def lexMaxKey (m : List (AText × AText)) : AText :=
  match m with
  | [] => []
  | (k, _) :: rest => rest.foldl (fun b p => if lexLtB b p.1 then p.1 else b) k

/-- `max(keys)` on the Arabic dictionary. -/
def natMaxKey (m : List (Nat × AText)) : Nat :=
  match m with
  | [] => 0
  | (k, _) :: rest => rest.foldl (fun b p => max b p.1) k

/-- Python `str.strip()`: remove leading and trailing whitespace. -/
def pyStrip (l : AText) : AText :=
  ((l.dropWhile isPyWs).reverse.dropWhile isPyWs).reverse

/-- One step of the second pass: attach one orphan continuation to the last
Roman footnote if any Roman entry exists, else to the last Arabic footnote if
any Arabic entry exists, else drop it. -/
def resolveStep (t : Tables) (o : Nat × AText) : Tables :=
  if t.roman.isEmpty then
    if t.arabic.isEmpty then t
    else { t with arabic := dictAdd (natMaxKey t.arabic) (pyStrip o.2) t.arabic }
  else { t with roman := dictAdd (lexMaxKey t.roman) (pyStrip o.2) t.roman }

/-- The second pass: resolve the orphan continuations in the order they were
encountered. -/
def resolveContinuations (t : Tables) (orphs : List (Nat × AText)) : Tables :=
  orphs.foldl resolveStep t

/-- Both passes over the per-page footnote-region lines: parse every page,
then resolve the orphans against the completed tables. -/
def extractFootnotes (pages : List (List AText)) : Tables :=
  let fin := extractFromFootnoteLines pages
  resolveContinuations fin.1 fin.2

/-- The numeral kind tag attached to a superscript marker. -/
inductive NumKind : Type
  | arabic : NumKind
  | roman : NumKind
deriving DecidableEq

/-- A superscript marker: `[start, stop)` character offsets into the page
body text, the literal reference token, and its numeral kind. -/
structure Marker : Type where
  start : Nat
  stop : Nat
  ref : AText
  kind : NumKind
deriving DecidableEq

/-- Drop one leading `+` sign if present. -/
def stripPlus (l : AText) : AText :=
  match l with
  | [] => []
  | c :: rest => if c = '+' then rest else c :: rest

/-- Python `int(s)` restricted to what the substituter feeds it: optional
surrounding whitespace, an optional `+` sign, then decimal digits (a negative
or malformed token behaves as a failed lookup either way). -/
def pyIntOpt (l : AText) : Option Nat :=
  let core := stripPlus (pyStrip l)
  if core.isEmpty then none
  else if core.all isDigitChar then some (digitsToNat core)
  else none

/-- The inline replacement format
`f" [Footnote {ref_text}: {footnote_text}]"`. -/
def fmtFootnote (ref txt : AText) : AText :=
  " [Footnote ".data ++ ref ++ ": ".data ++ txt ++ "]".data

/-- The lookup the substituter performs for a marker: Arabic markers are
resolved through `int(ref_text)` against the Arabic table, Roman markers by
their literal token against the Roman table. -/
def markerLookup (t : Tables) (mk : Marker) : Option AText :=
  match mk.kind with
  | NumKind.arabic => (pyIntOpt mk.ref).bind (fun n => alistGet n t.arabic)
  | NumKind.roman => alistGet mk.ref t.roman

/-- One substitution of `replace_superscript_references`: on a table hit,
splice the formatted inline footnote over the `[start, stop)` slice; on a
miss (including an `int` conversion failure) leave the text unchanged. -/
def substOne (t : Tables) (txt : AText) (mk : Marker) : AText :=
  match mk.kind with
  | NumKind.arabic =>
    match pyIntOpt mk.ref with
    | none => txt
    | some n =>
      match alistGet n t.arabic with
      | some ft =>
        txt.take mk.start ++
          (" [Footnote ".data ++ mk.ref ++ ": ".data ++ ft ++ "]".data) ++
          txt.drop mk.stop
      | none => txt
  | NumKind.roman =>
    match alistGet mk.ref t.roman with
    | some ft =>
      txt.take mk.start ++
        (" [Footnote ".data ++ mk.ref ++ ": ".data ++ ft ++ "]".data) ++
        txt.drop mk.stop
    | none => txt

/-- Process one page's markers (the source sorts them by descending start
offset before this fold). -/
def substPage (t : Tables) (txt : AText) (mks : List Marker) : AText :=
  mks.foldl (substOne t) txt

/-- A marker actually triggers a substitution exactly when its lookup hits. -/
def markerHits (t : Tables) (mk : Marker) : Bool :=
  (markerLookup t mk).isSome

/-- A span of a page line: its text and its font size (geometry over `ℚ`). -/
structure PSpan : Type where
  text : AText
  size : ℚ
deriving DecidableEq

/-- A page line: top y-coordinate and its spans. -/
structure PLine : Type where
  y : ℚ
  spans : List PSpan
deriving DecidableEq

/-- A drawn vector primitive: whether it is of type `"l"` (line), and its
rectangle coordinates `rect = (x0, y0, x1, y1)`. -/
structure PDrawing : Type where
  isLine : Bool
  x0 : ℚ
  y0 : ℚ
  x1 : ℚ
  y1 : ℚ
deriving DecidableEq

/-- A page: height, width, drawings, and lines (blocks flattened). -/
structure PPage : Type where
  height : ℚ
  width : ℚ
  drawings : List PDrawing
  lines : List PLine
deriving DecidableEq

/-- The concatenated text of a line's spans. -/
def lineText (l : PLine) : AText :=
  (l.spans.map PSpan.text).flatten

/-- The qualifying horizontal segments: line-type drawings with both y
endpoints within 2 units and horizontal extent above 30% of page width; each
becomes `(min y, horizontal length)` as in the source. -/
def horizLines (p : PPage) : List (ℚ × ℚ) :=
  (p.drawings.filter (fun d =>
      d.isLine && decide (|d.y0 - d.y1| < 2) &&
      decide (|d.x0 - d.x1| > p.width * (3 / 10)))).map
    (fun d => (min d.y0 d.y1, max d.x0 d.x1 - min d.x0 d.x1))

/-- Python `max(list, key=f)` starting from a first element: keeps the first
element among key-ties. -/
def pyMaxBy {α : Type} (f : α → ℚ) (a : α) (l : List α) : α :=
  l.foldl (fun b x => if f b < f x then x else b) a

/-- `min(list)` starting from a first element. -/
def listMin (a : ℚ) (l : List ℚ) : ℚ :=
  l.foldl min a

/-- Does the line text match `^\s*\d+[\.\s]`? -/
def arabicLeadB (t : AText) : Bool :=
  let a := t.dropWhile isPyWs
  let ds := a.takeWhile isDigitChar
  !ds.isEmpty &&
    match a.drop ds.length with
    | c :: _ => c = '.' || isPyWs c
    | [] => false

/-- Group 1 of `^\s*([ivxlcdmIVXLCDM]+)[\.\s]` when the line matches. -/
def romanLeadTok (t : AText) : Option AText :=
  let a := t.dropWhile isPyWs
  let tok := a.takeWhile isRomanChar
  if tok.isEmpty then none
  else
    match a.drop tok.length with
    | c :: _ => if c = '.' || isPyWs c then some tok else none
    | [] => none

/-- The Arabic half of one line's candidate scan: append the line's y when
the line has an Arabic-style lead and lies below 40% of the page height. -/
def candStepArabic (h : ℚ) (acc : List ℚ) (l : PLine) : List ℚ :=
  if arabicLeadB (lineText l) && decide (l.y > h * (4 / 10)) then acc ++ [l.y]
  else acc

/-- The Roman half of one line's candidate scan: append the line's y when the
line has a validated Roman-style lead and lies below 40% of the page
height. -/
def candStepRoman (h : ℚ) (acc : List ℚ) (l : PLine) : List ℚ :=
  match romanLeadTok (lineText l) with
  | some tok =>
    if is_roman_numeral tok && decide (l.y > h * (4 / 10)) then acc ++ [l.y]
    else acc
  | none => acc

/-- One line's contribution to the numeral-pattern candidate scan: the
Arabic check runs first, then the Roman check, as in the source loop. -/
def candStep (h : ℚ) (acc : List ℚ) (l : PLine) : List ℚ :=
  candStepRoman h (candStepArabic h acc l) l

/-- The numeral-pattern footnote candidates over all lines of the page. -/
def footnoteCandidates (p : PPage) : List ℚ :=
  p.lines.foldl (candStep p.height) []

/-- Append one observation to the per-font-size position dictionary. -/
def alAppendQ (k : ℚ) (y : ℚ) : List (ℚ × List ℚ) → List (ℚ × List ℚ)
  | [] => [(k, [y])]
  | (k', v) :: rest =>
    if k' = k then (k', v ++ [y]) :: rest else (k', v) :: alAppendQ k y rest

/-- Keyed read on the font-size dictionary. -/
def alGetQ (k : ℚ) : List (ℚ × List ℚ) → Option (List ℚ)
  | [] => none
  | (k', v) :: rest => if k' = k then some v else alGetQ k rest

/-- One line's contribution to `font_sizes`: record the line's y once per
span, under each span's font size. -/
def fontStep (acc : List (ℚ × List ℚ)) (l : PLine) : List (ℚ × List ℚ) :=
  l.spans.foldl (fun acc2 s => alAppendQ s.size l.y acc2) acc

/-- `font_sizes`: for every span of every line, record the line's y under the
span's font size, in encounter order. -/
def fontSizesAList (p : PPage) : List (ℚ × List ℚ) :=
  p.lines.foldl fontStep []

/-- `sorted(pairs)[0]`: the lexicographically least `(position, size)` pair,
keeping the first among ties. -/
def pairMinLex (a : ℚ × ℚ) (l : List (ℚ × ℚ)) : ℚ × ℚ :=
  l.foldl
    (fun b x =>
      if x.1 < b.1 then x else if x.1 = b.1 ∧ x.2 < b.2 then x else b)
    a

/-- The separator candidates: qualifying horizontal segments within the
middle band (20%–80% of page height). -/
def sepLines (p : PPage) : List (ℚ × ℚ) :=
  (horizLines p).filter (fun l =>
    decide (l.1 < p.height * (8 / 10)) && decide (l.1 > p.height * (2 / 10)))

/-- Step 1 of the cascade: the rule-line heuristic. -/
def ruleBoundary (p : PPage) : Option ℚ :=
  if (horizLines p).isEmpty then none
  else
    match sepLines p with
    | [] => none
    | s :: ss =>
      match (s :: ss).filter (fun l => decide (l.1 > p.height * (5 / 10))) with
      | b :: bs => some (pyMaxBy Prod.snd b bs).1
      | [] => some (pyMaxBy Prod.fst s ss).1

/-- Step 2 of the cascade: the numeral-pattern heuristic. -/
def numeralBoundary (p : PPage) : Option ℚ :=
  match footnoteCandidates p with
  | [] => none
  | c :: cs => some (max (p.height * (4 / 10)) (listMin c cs - 5))

/-- The `(mean position, size)` pairs derived from the font-size
dictionary. -/
def avgPairs (fs : List (ℚ × List ℚ)) : List (ℚ × ℚ) :=
  fs.map (fun kv => ((kv.2.foldl (· + ·) 0) / (kv.2.length : ℚ), kv.1))

/-- Step 3 of the cascade: the font-size heuristic (the size whose mean line
position is least, when at least two sizes exist and that mean lies in the
bottom half). -/
def fontBoundary (p : PPage) : Option ℚ :=
  if (fontSizesAList p).length ≥ 2 then
    match avgPairs (fontSizesAList p) with
    | [] => none
    | a :: as_ =>
      if (pairMinLex a as_).1 > p.height * (5 / 10) then
        match alGetQ (pairMinLex a as_).2 (fontSizesAList p) with
        | some (q :: qs) => some (max (p.height * (4 / 10)) (listMin q qs - 5))
        | some [] => none
        | none => none
      else none
  else none

/-- `detect_footnote_boundary`: the four-step decision cascade. -/
def detect_footnote_boundary (p : PPage) : ℚ :=
  match ruleBoundary p with
  | some y => y
  | none =>
    match numeralBoundary p with
    | some y => y
    | none =>
      match fontBoundary p with
      | some y => y
      | none => p.height * (6 / 10)

/-! ### Theorems -/

/-- C6: parsing the footnote-region lines `["1. Alpha", "continues alpha",
"2. Beta"]` on a single page yields exactly the Arabic entries
`{1 ↦ "Alpha continues alpha", 2 ↦ "Beta"}`, no Roman entries, and an empty
orphan list: the non-initiating line is appended with a single joining space
to the open entry, and the line `"2. Beta"` flushes the open entry. -/
theorem c6_continuation_ordering :
    extractFromFootnoteLines
        [["1. Alpha".data, "continues alpha".data, "2. Beta".data]] =
      (⟨[(1, "Alpha continues alpha".data), (2, "Beta".data)], []⟩, []) := by
  decide

/-- C2 counterexample: the page with footnote lines
`["1. Note one.", "ii. Note two roman."]` stores the Roman entry under the
key `"ii"` exactly as matched — not under the normalized uppercase `"II"`
the claim requires; lookup of `"II"` fails while lookup of `"ii"` succeeds. -/
theorem c2_roman_key_not_uppercased :
    alistGet "II".data
        (extractFootnotes
          [["1. Note one.".data, "ii. Note two roman.".data]]).roman = none ∧
      alistGet "ii".data
        (extractFootnotes
          [["1. Note one.".data, "ii. Note two roman.".data]]).roman =
        some "Note two roman.".data := by
  constructor
  · decide
  · decide

/-- C2 amended: Roman footnote keys are stored exactly as the initiating
line's matched token (case preserved; validation of the token is
case-insensitive but no normalization is applied).  The example page yields
the Arabic entry `{1 ↦ "Note one."}` and the Roman entry keyed `"ii"` with
text `"Note two roman."`, with no orphans. -/
theorem c2_roman_key_as_matched :
    extractFromFootnoteLines
        [["1. Note one.".data, "ii. Note two roman.".data]] =
      (⟨[(1, "Note one.".data)],
        [("ii".data, "Note two roman.".data)]⟩, []) := by
  decide

/-- C3 counterexample: the line `"stray line"` on page 0 is an orphan with no
open footnote and no prior entry in either table on first encounter (the
first page alone yields empty tables and records the orphan), yet it is NOT
dropped: the resolver runs after all pages, and the entry `1` opened later on
page 1 receives the orphan's text. -/
theorem c3_orphan_attached_to_later_entry :
    extractFromFootnoteLines [["stray line".data]] =
        (⟨[], []⟩, [(0, "stray line".data)]) ∧
      (extractFootnotes [["stray line".data], ["1. Later.".data]]).arabic =
        [(1, "Later. stray line".data)] := by
  constructor
  · decide
  · decide

/-- C3 amended: an orphan continuation line is silently dropped (attached to
no entry, no error) only when both footnote tables are empty at resolution
time, i.e. when the whole document produced no footnote entry; resolution
happens after all pages, so entries opened on later pages can still receive
the orphan. -/
theorem c3_orphans_dropped_only_when_tables_empty
    (orphs : List (Nat × AText)) :
    resolveContinuations ⟨[], []⟩ orphs = ⟨[], []⟩ := by
  induction orphs with
  | nil => rfl
  | cons o rest ih =>
    simpa [resolveContinuations, resolveStep, List.foldl] using ih

/-- On a table hit, one substitution splices the formatted inline footnote
over the marker's `[start, stop)` slice. -/
lemma substOne_hit (t : Tables) (txt : AText) (mk : Marker) (ft : AText)
    (h : markerLookup t mk = some ft) :
    substOne t txt mk =
      txt.take mk.start ++ fmtFootnote mk.ref ft ++ txt.drop mk.stop := by
  obtain ⟨st, en, ref, kind⟩ := mk
  cases kind with
  | arabic =>
    cases hp : pyIntOpt ref with
    | none => simp [markerLookup, hp] at h
    | some n =>
      cases hg : alistGet n t.arabic with
      | none => simp [markerLookup, hp, hg] at h
      | some v =>
        simp [markerLookup, hp, hg] at h
        simp [substOne, hp, hg, fmtFootnote, h]
  | roman =>
    cases hg : alistGet ref t.roman with
    | none => simp [markerLookup, hg] at h
    | some v =>
      simp [markerLookup, hg] at h
      simp [substOne, hg, fmtFootnote, h]

/-- On a miss, one substitution leaves the page text unchanged. -/
lemma substOne_miss (t : Tables) (txt : AText) (mk : Marker)
    (h : markerLookup t mk = none) :
    substOne t txt mk = txt := by
  obtain ⟨st, en, ref, kind⟩ := mk
  cases kind with
  | arabic =>
    cases hp : pyIntOpt ref with
    | none => simp [substOne, hp]
    | some n =>
      cases hg : alistGet n t.arabic with
      | none => simp [substOne, hp, hg]
      | some v => simp [markerLookup, hp, hg] at h
  | roman =>
    cases hg : alistGet ref t.roman with
    | none => simp [substOne, hg]
    | some v => simp [markerLookup, hg] at h

/-- C4: for every marker whose lookup under its numeral kind hits, the
substituter replaces the `[start, stop)` slice of the body text with exactly
`" [Footnote " ++ ref ++ ": " ++ text ++ "]"` (the reference token exactly as
it appeared); for every marker whose lookup misses, the body text is left
unchanged. -/
theorem c4_inline_format_exact (t : Tables) (txt : AText) (mk : Marker) :
    (∀ ft, markerLookup t mk = some ft →
        substOne t txt mk =
          txt.take mk.start ++
            (" [Footnote ".data ++ mk.ref ++ ": ".data ++ ft ++ "]".data) ++
            txt.drop mk.stop) ∧
      (markerLookup t mk = none → substOne t txt mk = txt) :=
  ⟨fun ft h => substOne_hit t txt mk ft h, fun h => substOne_miss t txt mk h⟩

/-- C4 witness: a concrete hit produces the exact inline format, and a
concrete miss leaves the text unchanged. -/
theorem c4_inline_format_exact_witness :
    substOne ⟨[(1, "Alpha".data)], []⟩ "abc1def".data
        ⟨3, 4, "1".data, NumKind.arabic⟩ =
      ("abc1def".data.take 3 ++
        (" [Footnote ".data ++ "1".data ++ ": ".data ++ "Alpha".data ++
          "]".data) ++ "abc1def".data.drop 4) ∧
      substOne ⟨[], []⟩ "xyz".data ⟨0, 1, "9".data, NumKind.arabic⟩ =
        "xyz".data :=
  ⟨(c4_inline_format_exact ⟨[(1, "Alpha".data)], []⟩ "abc1def".data
      ⟨3, 4, "1".data, NumKind.arabic⟩).1 "Alpha".data (by decide),
   (c4_inline_format_exact ⟨[], []⟩ "xyz".data
      ⟨0, 1, "9".data, NumKind.arabic⟩).2 (by decide)⟩

/-- Digit characters are not Python whitespace. -/
lemma not_ws_of_digit {c : Char} (h : isDigitChar c = true) : isPyWs c = false := by
  simp only [isPyWs, Bool.or_eq_false_iff, decide_eq_false_iff_not]
  refine ⟨⟨⟨⟨⟨?_, ?_⟩, ?_⟩, ?_⟩, ?_⟩, ?_⟩ <;>
    · rintro rfl
      revert h
      decide

/-- `dropWhile` is the identity when no element satisfies the predicate. -/
lemma dropWhile_eq_self_of_none {p : Char → Bool} :
    ∀ {l : List Char}, (∀ c ∈ l, p c = false) → l.dropWhile p = l
  | [], _ => rfl
  | c :: cs, h => by
    simp [List.dropWhile, h c (by simp)]

/-- `pyStrip` is the identity on a string of digits. -/
lemma pyStrip_of_digits {l : AText} (hd : l.all isDigitChar = true) :
    pyStrip l = l := by
  have hnw : ∀ c ∈ l, isPyWs c = false := by
    intro c hc
    exact not_ws_of_digit (by simpa using List.all_eq_true.mp hd c hc)
  unfold pyStrip
  rw [dropWhile_eq_self_of_none hnw,
    dropWhile_eq_self_of_none (by intro c hc; exact hnw c (by simpa using hc)),
    List.reverse_reverse]

/-- Python `int` on a non-empty digit string is its decimal value. -/
lemma pyIntOpt_digits {l : AText} (hne : l ≠ [])
    (hd : l.all isDigitChar = true) : pyIntOpt l = some (digitsToNat l) := by
  unfold pyIntOpt
  rw [pyStrip_of_digits hd]
  match l, hne with
  | c :: cs, _ =>
    have hc : isDigitChar c = true := by
      simpa using List.all_eq_true.mp hd c (by simp)
    have hcne : c ≠ '+' := by
      intro h
      rw [h] at hc
      revert hc
      decide
    simp [stripPlus, hcne, hd]

/-- C10: an Arabic marker is resolved by the integer value of its digit
token: whenever the Arabic table holds an entry at the decimal value of the
marker's (non-empty, all-digit) token — in particular when the token differs
from the stored key only in leading zeros — the lookup succeeds on that
entry, and the inline replacement still displays the marker's original token
text unchanged. -/
theorem c10_arabic_lookup_by_value (t : Tables) (txt : AText) (mk : Marker)
    (ft : AText) (hk : mk.kind = NumKind.arabic) (hne : mk.ref ≠ [])
    (hd : mk.ref.all isDigitChar = true)
    (hget : alistGet (digitsToNat mk.ref) t.arabic = some ft) :
    markerLookup t mk = some ft ∧
      substOne t txt mk =
        txt.take mk.start ++
          (" [Footnote ".data ++ mk.ref ++ ": ".data ++ ft ++ "]".data) ++
          txt.drop mk.stop := by
  have hint : pyIntOpt mk.ref = some (digitsToNat mk.ref) :=
    pyIntOpt_digits hne hd
  have hlook : markerLookup t mk = some ft := by
    obtain ⟨st, en, ref, kind⟩ := mk
    cases hk
    simpa [markerLookup, hint] using hget
  exact ⟨hlook, substOne_hit t txt mk ft hlook⟩

/-- C10 witness: the marker token `"01"` resolves against the entry stored
under key `1` (initiated by a `"1."` line), and the replacement shows `"01"`
verbatim. -/
theorem c10_arabic_lookup_by_value_witness :
    markerLookup ⟨[(1, "Alpha".data)], []⟩
        ⟨3, 4, "01".data, NumKind.arabic⟩ = some "Alpha".data ∧
      substOne ⟨[(1, "Alpha".data)], []⟩ "abc1def".data
        ⟨3, 4, "01".data, NumKind.arabic⟩ =
        "abc1def".data.take 3 ++
          (" [Footnote ".data ++ "01".data ++ ": ".data ++ "Alpha".data ++
            "]".data) ++ "abc1def".data.drop 4 :=
  c10_arabic_lookup_by_value ⟨[(1, "Alpha".data)], []⟩ "abc1def".data
    ⟨3, 4, "01".data, NumKind.arabic⟩ "Alpha".data rfl (by decide) (by decide)
    (by decide)

/-- One substitution step preserves any prefix that ends at or before the
marker's start offset (a miss preserves everything). -/
lemma substOne_take_of_le (t : Tables) (m : Nat) (txt : AText) (mk : Marker)
    (hm : m ≤ txt.length) (hstart : markerHits t mk = true → m ≤ mk.start) :
    (substOne t txt mk).take m = txt.take m ∧ m ≤ (substOne t txt mk).length := by
  cases hh : markerHits t mk with
  | false =>
    have hnone : markerLookup t mk = none := by
      unfold markerHits at hh
      exact Option.not_isSome_iff_eq_none.mp (by simp [hh])
    rw [substOne_miss t txt mk hnone]
    exact ⟨rfl, hm⟩
  | true =>
    have hms : m ≤ mk.start := hstart hh
    obtain ⟨ft, hft⟩ := Option.isSome_iff_exists.mp (by simpa [markerHits] using hh)
    rw [substOne_hit t txt mk ft hft]
    have hlen : m ≤ (txt.take mk.start).length := by
      rw [List.length_take]
      exact le_min hms hm
    constructor
    · rw [List.append_assoc, List.take_append_of_le_length hlen,
        List.take_take, min_eq_left hms]
    · calc m ≤ (txt.take mk.start).length := hlen
        _ ≤ (txt.take mk.start ++
              (fmtFootnote mk.ref ft ++ txt.drop mk.stop)).length := by
            rw [List.length_append]; omega
        _ = _ := by rw [List.append_assoc]

/-- Folding substitutions over markers that all start at or beyond `m`
preserves the length-`m` prefix of the page text. -/
lemma substPage_take_of_le (t : Tables) (m : Nat) :
    ∀ (mks : List Marker) (txt : AText), m ≤ txt.length →
      (∀ mk ∈ mks, markerHits t mk = true → m ≤ mk.start) →
      (substPage t txt mks).take m = txt.take m
  | [], _, _, _ => rfl
  | mk :: rest, txt, hm, hall => by
    have h1 := substOne_take_of_le t m txt mk hm (hall mk (by simp))
    have ih := substPage_take_of_le t m rest (substOne t txt mk) h1.2
      (fun mk' hmk' => hall mk' (by simp [hmk']))
    calc (substPage t txt (mk :: rest)).take m
        = (substPage t (substOne t txt mk) rest).take m := rfl
      _ = (substOne t txt mk).take m := ih
      _ = txt.take m := h1.1

/-- C5: for a page with a non-empty marker list whose offset ranges are
disjoint and within bounds, processed in descending start-offset order, the
processed page text agrees byte-for-byte with the pre-substitution body text
on every position before the start offset of the earliest-touched
(lowest-start substituted) marker. -/
theorem c5_prefix_before_earliest_touched (t : Tables) (txt : AText)
    (mks : List Marker) (mk0 : Marker) (hne : mks ≠ [])
    (hsorted : mks.Pairwise (fun a b => b.start ≤ a.start))
    (hdisj : mks.Pairwise (fun a b => a.stop ≤ b.start ∨ b.stop ≤ a.start))
    (hbounds : ∀ mk ∈ mks, mk.start ≤ mk.stop ∧ mk.stop ≤ txt.length)
    (hmem : mk0 ∈ mks) (hhit : markerHits t mk0 = true)
    (hmin : ∀ mk ∈ mks, markerHits t mk = true → mk0.start ≤ mk.start) :
    (substPage t txt mks).take mk0.start = txt.take mk0.start := by
  have hb := hbounds mk0 hmem
  exact substPage_take_of_le t mk0.start mks txt (le_trans hb.1 hb.2) hmin

/-- C5 witness: a two-marker page (offsets 5 and 3, processed in descending
order, the low marker hitting and the high one missing) keeps its first three
characters intact. -/
theorem c5_prefix_before_earliest_touched_witness :
    (substPage ⟨[(1, "N".data)], []⟩ "abc1def9".data
        [⟨7, 8, "9".data, NumKind.arabic⟩,
          ⟨3, 4, "1".data, NumKind.arabic⟩]).take 3 =
      "abc1def9".data.take 3 :=
  c5_prefix_before_earliest_touched ⟨[(1, "N".data)], []⟩ "abc1def9".data
    [⟨7, 8, "9".data, NumKind.arabic⟩, ⟨3, 4, "1".data, NumKind.arabic⟩]
    ⟨3, 4, "1".data, NumKind.arabic⟩ (by decide) (by decide) (by decide)
    (by decide) (by decide) (by decide) (by decide)

/-- C9: the Arabic and Roman numbering spaces never merge.  Flushing an open
Arabic footnote leaves the Roman table untouched and vice versa; an Arabic
marker's substitution never reads the Roman table (and vice versa); and one
resolver step modifies at most one of the two tables. -/
theorem c9_key_spaces_disjoint :
    (∀ (t : Tables) (k : Nat) (txt : AText),
        (flushOpen (some (FootKey.arabic k, txt)) t).roman = t.roman) ∧
      (∀ (t : Tables) (s txt : AText),
        (flushOpen (some (FootKey.roman s, txt)) t).arabic = t.arabic) ∧
      (∀ (ar : List (Nat × AText)) (ro ro' : List (AText × AText))
          (txt : AText) (st en : Nat) (ref : AText),
        substOne ⟨ar, ro⟩ txt ⟨st, en, ref, NumKind.arabic⟩ =
          substOne ⟨ar, ro'⟩ txt ⟨st, en, ref, NumKind.arabic⟩) ∧
      (∀ (ar ar' : List (Nat × AText)) (ro : List (AText × AText))
          (txt : AText) (st en : Nat) (ref : AText),
        substOne ⟨ar, ro⟩ txt ⟨st, en, ref, NumKind.roman⟩ =
          substOne ⟨ar', ro⟩ txt ⟨st, en, ref, NumKind.roman⟩) ∧
      (∀ (t : Tables) (o : Nat × AText),
        (resolveStep t o).arabic = t.arabic ∨
          (resolveStep t o).roman = t.roman) := by
  refine ⟨fun t k txt => rfl, fun t s txt => rfl, fun ar ro ro' txt st en ref => rfl,
    fun ar ar' ro txt st en ref => rfl, fun t o => ?_⟩
  unfold resolveStep
  by_cases hro : t.roman.isEmpty
  · by_cases har : t.arabic.isEmpty
    · simp [hro, har]
    · simp [hro, har]
  · simp [hro]

/-- Characters with equal code points are equal. -/
lemma char_eq_of_toNat {a b : Char} (h : a.toNat = b.toNat) : a = b :=
  Char.ext (UInt32.ext h)

/-- Unfolding of the lexicographic comparison on a cons pair. -/
lemma lexLtB_cons (x y : Char) (xs ys : AText) :
    lexLtB (x :: xs) (y :: ys) = true ↔
      x.toNat < y.toNat ∨ (x = y ∧ lexLtB xs ys = true) := by
  by_cases h1 : x.toNat < y.toNat
  · simp [lexLtB, h1]
  · by_cases h2 : x = y
    · simp [lexLtB, h1, h2]
    · simp [lexLtB, h1, h2]

/-- The lexicographic comparison is transitive. -/
lemma lexLtB_trans (a : AText) :
    ∀ b c, lexLtB a b = true → lexLtB b c = true → lexLtB a c = true := by
  induction a with
  | nil =>
    intro b c hab hbc
    cases b with
    | nil => simp [lexLtB] at hab
    | cons y ys =>
      cases c with
      | nil => simp [lexLtB] at hbc
      | cons z zs => simp [lexLtB]
  | cons x xs ih =>
    intro b c hab hbc
    cases b with
    | nil => simp [lexLtB] at hab
    | cons y ys =>
      cases c with
      | nil => simp [lexLtB] at hbc
      | cons z zs =>
        rw [lexLtB_cons] at hab hbc ⊢
        rcases hab with h1 | ⟨rfl, h1⟩
        · rcases hbc with h2 | ⟨rfl, h2⟩
          · exact Or.inl (lt_trans h1 h2)
          · exact Or.inl h1
        · rcases hbc with h2 | ⟨rfl, h2⟩
          · exact Or.inl h2
          · exact Or.inr ⟨rfl, ih ys zs h1 h2⟩

/-- Trichotomy for the lexicographic comparison. -/
lemma lexLtB_connex :
    ∀ a b : AText, lexLtB a b = true ∨ a = b ∨ lexLtB b a = true := by
  intro a
  induction a with
  | nil =>
    intro b
    cases b with
    | nil => exact Or.inr (Or.inl rfl)
    | cons y ys => exact Or.inl (by simp [lexLtB])
  | cons x xs ih =>
    intro b
    cases b with
    | nil => exact Or.inr (Or.inr (by simp [lexLtB]))
    | cons y ys =>
      rcases Nat.lt_trichotomy x.toNat y.toNat with h | h | h
      · exact Or.inl ((lexLtB_cons x y xs ys).mpr (Or.inl h))
      · have hxy : x = y := char_eq_of_toNat h
        rcases ih ys with h2 | h2 | h2
        · exact Or.inl ((lexLtB_cons x y xs ys).mpr (Or.inr ⟨hxy, h2⟩))
        · exact Or.inr (Or.inl (by rw [hxy, h2]))
        · exact Or.inr (Or.inr ((lexLtB_cons y x ys xs).mpr
            (Or.inr ⟨hxy.symm, h2⟩)))
      · exact Or.inr (Or.inr ((lexLtB_cons y x ys xs).mpr (Or.inl h)))

/-- The lexicographic comparison is irreflexive. -/
lemma lexLtB_irrefl : ∀ l : AText, lexLtB l l = false
  | [] => rfl
  | c :: cs => by simp [lexLtB, lexLtB_irrefl cs]

/-- The fold computing `sorted(keys)[-1]` returns a key of the list (or the
seed) that no key of the list, nor the seed, lexicographically exceeds. -/
lemma lexFold_spec (ks : List (AText × AText)) :
    ∀ k : AText,
      (ks.foldl (fun b p => if lexLtB b p.1 then p.1 else b) k = k ∨
        ∃ p ∈ ks, ks.foldl (fun b p => if lexLtB b p.1 then p.1 else b) k = p.1) ∧
      lexLtB (ks.foldl (fun b p => if lexLtB b p.1 then p.1 else b) k) k = false ∧
      ∀ p ∈ ks,
        lexLtB (ks.foldl (fun b p => if lexLtB b p.1 then p.1 else b) k) p.1 = false := by
  induction ks with
  | nil => exact fun k => ⟨Or.inl rfl, lexLtB_irrefl k, by simp⟩
  | cons q rest ih =>
    intro k
    cases hq : lexLtB k q.1 with
    | true =>
      have hstep :
          (q :: rest).foldl (fun b p => if lexLtB b p.1 then p.1 else b) k =
            rest.foldl (fun b p => if lexLtB b p.1 then p.1 else b) q.1 := by
        simp [hq]
      rw [hstep]
      obtain ⟨hmem, htop, hall⟩ := ih q.1
      refine ⟨?_, ?_, ?_⟩
      · rcases hmem with h | ⟨p, hp, h⟩
        · exact Or.inr ⟨q, by simp, h⟩
        · exact Or.inr ⟨p, by simp [hp], h⟩
      · cases hrk : lexLtB (rest.foldl (fun b p => if lexLtB b p.1 then p.1 else b) q.1) k with
        | false => rfl
        | true =>
          exact absurd (lexLtB_trans _ k q.1 hrk hq) (by simp [htop])
      · intro p hp
        rcases List.mem_cons.mp hp with rfl | hp2
        · exact htop
        · exact hall p hp2
    | false =>
      have hstep :
          (q :: rest).foldl (fun b p => if lexLtB b p.1 then p.1 else b) k =
            rest.foldl (fun b p => if lexLtB b p.1 then p.1 else b) k := by
        simp [hq]
      rw [hstep]
      obtain ⟨hmem, htop, hall⟩ := ih k
      refine ⟨?_, htop, ?_⟩
      · rcases hmem with h | ⟨p, hp, h⟩
        · exact Or.inl h
        · exact Or.inr ⟨p, by simp [hp], h⟩
      · intro p hp
        rcases List.mem_cons.mp hp with rfl | hp2
        · rcases lexLtB_connex k p.1 with h | h | h
          · rw [h] at hq
            exact absurd hq (by simp)
          · rw [← h]
            exact htop
          · cases hrp : lexLtB (rest.foldl (fun b p => if lexLtB b p.1 then p.1 else b) k) p.1 with
            | false => rfl
            | true => exact absurd (lexLtB_trans _ p.1 k hrp h) (by simp [htop])
        · exact hall p hp2

/-- The fold computing `max(keys)` returns a key of the list (or the seed)
that bounds the seed and every key of the list from above. -/
lemma natFold_spec (ks : List (Nat × AText)) :
    ∀ k : Nat,
      (ks.foldl (fun b p => max b p.1) k = k ∨
        ∃ p ∈ ks, ks.foldl (fun b p => max b p.1) k = p.1) ∧
      k ≤ ks.foldl (fun b p => max b p.1) k ∧
      ∀ p ∈ ks, p.1 ≤ ks.foldl (fun b p => max b p.1) k := by
  induction ks with
  | nil => exact fun k => ⟨Or.inl rfl, le_refl k, by simp⟩
  | cons q rest ih =>
    intro k
    have hstep : (q :: rest).foldl (fun b p => max b p.1) k =
        rest.foldl (fun b p => max b p.1) (max k q.1) := rfl
    rw [hstep]
    obtain ⟨hmem, htop, hall⟩ := ih (max k q.1)
    refine ⟨?_, le_trans (le_max_left _ _) htop, ?_⟩
    · rcases hmem with h | ⟨p, hp, h⟩
      · rcases max_choice k q.1 with hm | hm
        · exact Or.inl (by rw [h, hm])
        · exact Or.inr ⟨q, by simp, by rw [h, hm]⟩
      · exact Or.inr ⟨p, by simp [hp], h⟩
    · intro p hp
      rcases List.mem_cons.mp hp with rfl | hp2
      · exact le_trans (le_max_right k p.1) htop
      · exact hall p hp2

/-- A key present in an association list has a stored value. -/
lemma alistGet_exists_of_mem {α : Type} [DecidableEq α] :
    ∀ {m : List (α × AText)} {k : α}, (∃ p ∈ m, k = p.1) →
      ∃ v, alistGet k m = some v
  | [], _, h => by simp at h
  | (k', v') :: rest, k, h => by
    by_cases hk : k' = k
    · exact ⟨v', by simp [alistGet, hk]⟩
    · obtain ⟨p, hp, hkp⟩ := h
      rcases List.mem_cons.mp hp with rfl | hp2
      · exact absurd hkp.symm hk
      · obtain ⟨v, hv⟩ := alistGet_exists_of_mem ⟨p, hp2, hkp⟩
        exact ⟨v, by simp [alistGet, hk, hv]⟩

/-- Replacing the value at a present key makes `alistGet` read it back. -/
lemma alistGet_alistSet_self {α : Type} [DecidableEq α] :
    ∀ {m : List (α × AText)} {k : α} {old v : AText},
      alistGet k m = some old → alistGet k (alistSet k v m) = some v
  | [], _, _, _, h => by simp [alistGet] at h
  | (k', v') :: rest, k, old, v, h => by
    by_cases hk : k' = k
    · simp [alistGet, alistSet, hk]
    · simp only [alistGet, alistSet, if_neg hk] at h ⊢
      exact alistGet_alistSet_self h

/-- Replacing the value at one key leaves reads of other keys unchanged. -/
lemma alistGet_alistSet_ne {α : Type} [DecidableEq α] :
    ∀ {m : List (α × AText)} {k k2 : α} {v : AText}, k2 ≠ k →
      alistGet k2 (alistSet k v m) = alistGet k2 m
  | [], _, _, _, _ => rfl
  | (k', v') :: rest, k, k2, v, hne => by
    by_cases hk : k' = k
    · subst hk
      simp [alistGet, alistSet, Ne.symm hne]
    · simp only [alistSet, if_neg hk, alistGet]
      by_cases hk2 : k' = k2
      · simp [hk2]
      · simp only [if_neg hk2]
        exact alistGet_alistSet_ne hne

/-- Reading a key other than the appended one ignores the appended pair. -/
lemma alistGet_append_ne {α : Type} [DecidableEq α] :
    ∀ {m : List (α × AText)} {k k2 : α} {v : AText}, k2 ≠ k →
      alistGet k2 (m ++ [(k, v)]) = alistGet k2 m
  | [], _, _, _, hne => by simp [alistGet, Ne.symm hne]
  | (k', v') :: rest, k, k2, v, hne => by
    by_cases hk2 : k' = k2
    · simp [alistGet, hk2]
    · simp only [List.cons_append, alistGet, if_neg hk2]
      exact alistGet_append_ne hne

/-- `dictAdd` at a present key appends a space plus the new text. -/
lemma dictAdd_get_self {α : Type} [DecidableEq α] {m : List (α × AText)}
    {k : α} {old txt : AText} (h : alistGet k m = some old) :
    alistGet k (dictAdd k txt m) = some (old ++ ' ' :: txt) := by
  unfold dictAdd
  rw [h]
  exact alistGet_alistSet_self h

/-- `dictAdd` leaves every other key's stored text unchanged. -/
lemma dictAdd_get_ne {α : Type} [DecidableEq α] {m : List (α × AText)}
    {k k2 : α} {txt : AText} (hne : k2 ≠ k) :
    alistGet k2 (dictAdd k txt m) = alistGet k2 m := by
  unfold dictAdd
  cases hget : alistGet k m with
  | some old => exact alistGet_alistSet_ne hne
  | none => exact alistGet_append_ne hne

/-- C1: orphan continuations are processed in the order encountered (the
resolver folds over the orphan list), and each orphan's stripped text is
space-joined onto the entry with the lexicographically highest Roman key when
the Roman table is non-empty, and otherwise onto the Arabic entry with the
numerically highest key; the other table and all other entries are left
unchanged. -/
theorem c1_orphan_attachment_policy (t : Tables) (orphs : List (Nat × AText))
    (pn : Nat) (line : AText) :
    resolveContinuations t ((pn, line) :: orphs) =
        resolveContinuations (resolveStep t (pn, line)) orphs ∧
      (t.roman ≠ [] →
        ∃ kmax old, alistGet kmax t.roman = some old ∧
          (∀ p ∈ t.roman, lexLtB kmax p.1 = false) ∧
          (resolveStep t (pn, line)).arabic = t.arabic ∧
          alistGet kmax (resolveStep t (pn, line)).roman =
            some (old ++ ' ' :: pyStrip line) ∧
          (∀ k2, k2 ≠ kmax →
            alistGet k2 (resolveStep t (pn, line)).roman =
              alistGet k2 t.roman)) ∧
      (t.roman = [] → t.arabic ≠ [] →
        ∃ kmax old, alistGet kmax t.arabic = some old ∧
          (∀ p ∈ t.arabic, p.1 ≤ kmax) ∧
          (resolveStep t (pn, line)).roman = t.roman ∧
          alistGet kmax (resolveStep t (pn, line)).arabic =
            some (old ++ ' ' :: pyStrip line) ∧
          (∀ k2, k2 ≠ kmax →
            alistGet k2 (resolveStep t (pn, line)).arabic =
              alistGet k2 t.arabic)) := by
  refine ⟨rfl, ?_, ?_⟩
  · intro hro
    obtain ⟨ar, ro⟩ := t
    cases ro with
    | nil => exact absurd rfl hro
    | cons q rest =>
      obtain ⟨hmem, htop, hall⟩ := lexFold_spec rest q.1
      have hkm : lexMaxKey (q :: rest) =
          rest.foldl (fun b p => if lexLtB b p.1 then p.1 else b) q.1 := rfl
      have hmem2 : ∃ p ∈ q :: rest, lexMaxKey (q :: rest) = p.1 := by
        rw [hkm]
        rcases hmem with h | ⟨p, hp, h⟩
        · exact ⟨q, by simp, h⟩
        · exact ⟨p, by simp [hp], h⟩
      obtain ⟨old, hold⟩ := alistGet_exists_of_mem hmem2
      have hstep : resolveStep ⟨ar, q :: rest⟩ (pn, line) =
          ⟨ar, dictAdd (lexMaxKey (q :: rest)) (pyStrip line) (q :: rest)⟩ := by
        simp [resolveStep]
      refine ⟨lexMaxKey (q :: rest), old, hold, ?_, by rw [hstep], ?_, ?_⟩
      · intro p hp
        rcases List.mem_cons.mp hp with rfl | hp2
        · rw [hkm]
          exact htop
        · rw [hkm]
          exact hall p hp2
      · rw [hstep]
        exact dictAdd_get_self hold
      · intro k2 hk2
        rw [hstep]
        exact dictAdd_get_ne hk2
  · intro hro har
    obtain ⟨ar, ro⟩ := t
    simp only at hro
    subst hro
    cases ar with
    | nil => exact absurd rfl har
    | cons q rest =>
      obtain ⟨hmem, htop, hall⟩ := natFold_spec rest q.1
      have hkm : natMaxKey (q :: rest) =
          rest.foldl (fun b p => max b p.1) q.1 := rfl
      have hmem2 : ∃ p ∈ q :: rest, natMaxKey (q :: rest) = p.1 := by
        rw [hkm]
        rcases hmem with h | ⟨p, hp, h⟩
        · exact ⟨q, by simp, h⟩
        · exact ⟨p, by simp [hp], h⟩
      obtain ⟨old, hold⟩ := alistGet_exists_of_mem hmem2
      have hstep : resolveStep ⟨q :: rest, []⟩ (pn, line) =
          ⟨dictAdd (natMaxKey (q :: rest)) (pyStrip line) (q :: rest), []⟩ := by
        simp [resolveStep]
      refine ⟨natMaxKey (q :: rest), old, hold, ?_, by rw [hstep], ?_, ?_⟩
      · intro p hp
        rcases List.mem_cons.mp hp with rfl | hp2
        · rw [hkm]
          exact htop
        · rw [hkm]
          exact hall p hp2
      · rw [hstep]
        exact dictAdd_get_self hold
      · intro k2 hk2
        rw [hstep]
        exact dictAdd_get_ne hk2

/-- C1 witness: with Roman entries `{"iv", "ix"}` an orphan attaches to the
lexicographically highest Roman key, and with Roman empty and Arabic entries
`{1, 3}` it attaches to the numerically highest Arabic key. -/
theorem c1_orphan_attachment_policy_witness :
    (∃ kmax old,
      alistGet kmax
          (Tables.mk [] [("iv".data, "A".data), ("ix".data, "B".data)]).roman =
        some old ∧
      (∀ p ∈ (Tables.mk [] [("iv".data, "A".data), ("ix".data, "B".data)]).roman,
        lexLtB kmax p.1 = false) ∧
      (resolveStep (Tables.mk [] [("iv".data, "A".data), ("ix".data, "B".data)])
          (0, " x ".data)).arabic =
        (Tables.mk [] [("iv".data, "A".data), ("ix".data, "B".data)]).arabic ∧
      alistGet kmax
          (resolveStep (Tables.mk [] [("iv".data, "A".data), ("ix".data, "B".data)])
            (0, " x ".data)).roman =
        some (old ++ ' ' :: pyStrip " x ".data) ∧
      (∀ k2, k2 ≠ kmax →
        alistGet k2
            (resolveStep (Tables.mk [] [("iv".data, "A".data), ("ix".data, "B".data)])
              (0, " x ".data)).roman =
          alistGet k2
            (Tables.mk [] [("iv".data, "A".data), ("ix".data, "B".data)]).roman)) ∧
    (∃ kmax old,
      alistGet kmax
          (Tables.mk [(1, "A".data), (3, "B".data)] []).arabic = some old ∧
      (∀ p ∈ (Tables.mk [(1, "A".data), (3, "B".data)] []).arabic, p.1 ≤ kmax) ∧
      (resolveStep (Tables.mk [(1, "A".data), (3, "B".data)] [])
          (0, " x ".data)).roman =
        (Tables.mk [(1, "A".data), (3, "B".data)] []).roman ∧
      alistGet kmax
          (resolveStep (Tables.mk [(1, "A".data), (3, "B".data)] [])
            (0, " x ".data)).arabic =
        some (old ++ ' ' :: pyStrip " x ".data) ∧
      (∀ k2, k2 ≠ kmax →
        alistGet k2
            (resolveStep (Tables.mk [(1, "A".data), (3, "B".data)] [])
              (0, " x ".data)).arabic =
          alistGet k2 (Tables.mk [(1, "A".data), (3, "B".data)] []).arabic)) :=
  ⟨(c1_orphan_attachment_policy
      (Tables.mk [] [("iv".data, "A".data), ("ix".data, "B".data)]) [] 0
      " x ".data).2.1 (by decide),
   (c1_orphan_attachment_policy
      (Tables.mk [(1, "A".data), (3, "B".data)] []) [] 0
      " x ".data).2.2 rfl (by decide)⟩

/-- C7: on a page with no qualifying drawn horizontal rule segment, no
numeral-pattern candidate line below 40% of page height, and fewer than two
distinct font sizes, the boundary detector returns exactly 60% of the page
height. -/
theorem c7_default_boundary (p : PPage) (h1 : horizLines p = [])
    (h2 : footnoteCandidates p = [])
    (h3 : (fontSizesAList p).length < 2) :
    detect_footnote_boundary p = p.height * (6 / 10) := by
  have hr : ruleBoundary p = none := by
    unfold ruleBoundary
    rw [h1]
    rfl
  have hn : numeralBoundary p = none := by
    unfold numeralBoundary
    rw [h2]
  have hf : fontBoundary p = none := by
    unfold fontBoundary
    have hlt : ¬(fontSizesAList p).length ≥ 2 := by omega
    simp only [ge_iff_le, if_neg hlt]
  unfold detect_footnote_boundary
  rw [hr, hn, hf]

/-- C7 witness: a one-line, one-font page with no drawings gets the default
boundary `0.6 × height`. -/
theorem c7_default_boundary_witness :
    detect_footnote_boundary
        (PPage.mk 100 50 [] [PLine.mk 10 [PSpan.mk "hello".data 12]]) =
      (100 : ℚ) * (6 / 10) :=
  c7_default_boundary
    (PPage.mk 100 50 [] [PLine.mk 10 [PSpan.mk "hello".data 12]])
    (by decide) (by decide) (by decide)

/-- `pyMaxBy` returns the seed or a member of the folded list. -/
lemma pyMaxBy_mem {α : Type} (f : α → ℚ) :
    ∀ (l : List α) (a : α), pyMaxBy f a l = a ∨ pyMaxBy f a l ∈ l
  | [], a => Or.inl rfl
  | x :: xs, a => by
    have hstep : pyMaxBy f a (x :: xs) =
        pyMaxBy f (if f a < f x then x else a) xs := rfl
    rw [hstep]
    rcases pyMaxBy_mem f xs (if f a < f x then x else a) with h | h
    · rw [h]
      by_cases hc : f a < f x
      · simp [hc]
      · simp [hc]
    · exact Or.inr (List.mem_cons_of_mem x h)

/-- `listMin` returns the seed or a member of the folded list. -/
lemma listMin_mem :
    ∀ (l : List ℚ) (a : ℚ), listMin a l = a ∨ listMin a l ∈ l
  | [], a => Or.inl rfl
  | x :: xs, a => by
    have hstep : listMin a (x :: xs) = listMin (min a x) xs := rfl
    rw [hstep]
    rcases listMin_mem xs (min a x) with h | h
    · rw [h]
      rcases min_choice a x with hm | hm
      · exact Or.inl hm
      · exact Or.inr (by simp [hm])
    · exact Or.inr (List.mem_cons_of_mem x h)

/-- The Arabic half of a candidate step only ever adds the line's own y. -/
lemma candStepArabic_sub (h : ℚ) (acc : List ℚ) (l : PLine) :
    ∀ q ∈ candStepArabic h acc l, q ∈ acc ∨ q = l.y := by
  intro q hq
  unfold candStepArabic at hq
  split_ifs at hq
  · rcases List.mem_append.mp hq with h2 | h2
    · exact Or.inl h2
    · exact Or.inr (by simpa using h2)
  · exact Or.inl hq

/-- The Roman half of a candidate step only ever adds the line's own y. -/
lemma candStepRoman_sub (h : ℚ) (acc : List ℚ) (l : PLine) :
    ∀ q ∈ candStepRoman h acc l, q ∈ acc ∨ q = l.y := by
  intro q hq
  unfold candStepRoman at hq
  split at hq
  · split_ifs at hq
    · rcases List.mem_append.mp hq with h2 | h2
      · exact Or.inl h2
      · exact Or.inr (by simpa using h2)
    · exact Or.inl hq
  · exact Or.inl hq

/-- One candidate step only ever adds the line's own y. -/
lemma candStep_sub (h : ℚ) (acc : List ℚ) (l : PLine) :
    ∀ q ∈ candStep h acc l, q ∈ acc ∨ q = l.y := by
  intro q hq
  rcases candStepRoman_sub h (candStepArabic h acc l) l q hq with h2 | h2
  · exact candStepArabic_sub h acc l q h2
  · exact Or.inr h2

/-- Every numeral-pattern candidate is some page line's y-coordinate. -/
lemma footnoteCandidates_mem (p : PPage) :
    ∀ q ∈ footnoteCandidates p, ∃ l ∈ p.lines, q = l.y := by
  have main : ∀ (ls : List PLine) (acc : List ℚ) (q : ℚ),
      q ∈ ls.foldl (candStep p.height) acc →
        q ∈ acc ∨ ∃ l ∈ ls, q = l.y := by
    intro ls
    induction ls with
    | nil => intro acc q hq; exact Or.inl hq
    | cons l rest ih =>
      intro acc q hq
      rcases ih (candStep p.height acc l) q hq with h | ⟨l', hl', h⟩
      · rcases candStep_sub p.height acc l q h with h2 | h2
        · exact Or.inl h2
        · exact Or.inr ⟨l, by simp, h2⟩
      · exact Or.inr ⟨l', by simp [hl'], h⟩
  intro q hq
  rcases main p.lines [] q hq with h | h
  · simp at h
  · exact h

/-- One `alAppendQ` only ever adds the new observation to the stored lists. -/
lemma alAppendQ_sub (k y0 : ℚ) :
    ∀ (acc : List (ℚ × List ℚ)) (kv : ℚ × List ℚ), kv ∈ alAppendQ k y0 acc →
      ∀ z ∈ kv.2, (∃ kv2 ∈ acc, z ∈ kv2.2) ∨ z = y0
  | [], kv, hkv => by
    intro z hz
    simp [alAppendQ] at hkv
    rw [hkv] at hz
    simp at hz
    exact Or.inr hz
  | (k', v') :: rest, kv, hkv => by
    intro z hz
    by_cases hk : k' = k
    · rw [alAppendQ, if_pos hk] at hkv
      rcases List.mem_cons.mp hkv with heq | h2
      · subst heq
        rcases List.mem_append.mp hz with h3 | h3
        · exact Or.inl ⟨(k', v'), by simp, h3⟩
        · exact Or.inr (by simpa using h3)
      · exact Or.inl ⟨kv, by simp [h2], hz⟩
    · rw [alAppendQ, if_neg hk] at hkv
      rcases List.mem_cons.mp hkv with heq | h2
      · subst heq
        exact Or.inl ⟨(k', v'), by simp, hz⟩
      · rcases alAppendQ_sub k y0 rest kv h2 z hz with ⟨kv2, hkv2, h3⟩ | h3
        · exact Or.inl ⟨kv2, by simp [hkv2], h3⟩
        · exact Or.inr h3

/-- One `fontStep` only ever records the line's own y. -/
lemma fontStep_sub (l : PLine) :
    ∀ (acc : List (ℚ × List ℚ)) (kv : ℚ × List ℚ), kv ∈ fontStep acc l →
      ∀ z ∈ kv.2, (∃ kv2 ∈ acc, z ∈ kv2.2) ∨ z = l.y := by
  have main : ∀ (sps : List PSpan) (acc : List (ℚ × List ℚ)) (kv : ℚ × List ℚ),
      kv ∈ sps.foldl (fun acc2 s => alAppendQ s.size l.y acc2) acc →
        ∀ z ∈ kv.2, (∃ kv2 ∈ acc, z ∈ kv2.2) ∨ z = l.y := by
    intro sps
    induction sps with
    | nil => intro acc kv hkv z hz; exact Or.inl ⟨kv, hkv, hz⟩
    | cons s rest ih =>
      intro acc kv hkv z hz
      rcases ih (alAppendQ s.size l.y acc) kv hkv z hz with ⟨kv2, hkv2, h3⟩ | h3
      · exact alAppendQ_sub s.size l.y acc kv2 hkv2 z h3
      · exact Or.inr h3
  exact main l.spans

/-- Every y recorded in the font-size dictionary is some page line's y. -/
lemma fontSizesAList_mem (p : PPage) :
    ∀ kv ∈ fontSizesAList p, ∀ z ∈ kv.2, ∃ l ∈ p.lines, z = l.y := by
  have main : ∀ (ls : List PLine) (acc : List (ℚ × List ℚ)) (kv : ℚ × List ℚ),
      kv ∈ ls.foldl fontStep acc → ∀ z ∈ kv.2,
        (∃ kv2 ∈ acc, z ∈ kv2.2) ∨ ∃ l ∈ ls, z = l.y := by
    intro ls
    induction ls with
    | nil => intro acc kv hkv z hz; exact Or.inl ⟨kv, hkv, hz⟩
    | cons l rest ih =>
      intro acc kv hkv z hz
      rcases ih (fontStep acc l) kv hkv z hz with ⟨kv2, hkv2, h3⟩ | ⟨l', hl', h3⟩
      · rcases fontStep_sub l acc kv2 hkv2 z h3 with ⟨kv3, hkv3, h4⟩ | h4
        · exact Or.inl ⟨kv3, hkv3, h4⟩
        · exact Or.inr ⟨l, by simp, h4⟩
      · exact Or.inr ⟨l', by simp [hl'], h3⟩
  intro kv hkv z hz
  rcases main p.lines [] kv hkv z hz with ⟨kv2, hkv2, _⟩ | h
  · simp at hkv2
  · exact h

/-- A successful keyed read of the font-size dictionary is a member. -/
lemma alGetQ_mem :
    ∀ {m : List (ℚ × List ℚ)} {k : ℚ} {v : List ℚ},
      alGetQ k m = some v → (k, v) ∈ m
  | [], _, _, h => by simp [alGetQ] at h
  | (k', v') :: rest, k, v, h => by
    by_cases hk : k' = k
    · rw [alGetQ, if_pos hk] at h
      subst hk
      simp at h
      simp [h]
    · rw [alGetQ, if_neg hk] at h
      exact List.mem_cons_of_mem _ (alGetQ_mem h)

/-- Any y produced by the rule-line heuristic lies in the 20%–80% band. -/
lemma ruleBoundary_bounds (p : PPage) (hh : 0 ≤ p.height) {y : ℚ}
    (h : ruleBoundary p = some y) : 0 ≤ y ∧ y ≤ p.height := by
  have hband : ∀ el ∈ sepLines p,
      el.1 < p.height * (8 / 10) ∧ el.1 > p.height * (2 / 10) := by
    intro el hel
    have hmf := List.mem_filter.mp hel
    simpa [Bool.and_eq_true, decide_eq_true_eq] using hmf.2
  unfold ruleBoundary at h
  by_cases he : (horizLines p).isEmpty
  · rw [if_pos he] at h
    simp at h
  · rw [if_neg he] at h
    split at h
    · simp at h
    next s ss hsep =>
      have hband2 : ∀ el ∈ s :: ss,
          el.1 < p.height * (8 / 10) ∧ el.1 > p.height * (2 / 10) := by
        intro el hel
        exact hband el (by rw [hsep]; exact hel)
      split at h
      next b bs hbot =>
        have hy : y = (pyMaxBy Prod.snd b bs).1 := by
          simpa using h.symm
        have hmem : pyMaxBy Prod.snd b bs ∈ b :: bs := by
          rcases pyMaxBy_mem Prod.snd bs b with h2 | h2
          · rw [h2]; simp
          · exact List.mem_cons_of_mem b h2
        rw [← hbot] at hmem
        have hb := hband2 _ (List.mem_of_mem_filter hmem)
        constructor
        · have h1 : 0 ≤ p.height * (2 / 10) := mul_nonneg hh (by norm_num)
          linarith [hb.2]
        · linarith [hb.1]
      next hbot =>
        have hy : y = (pyMaxBy Prod.fst s ss).1 := by
          simpa using h.symm
        have hmem : pyMaxBy Prod.fst s ss ∈ s :: ss := by
          rcases pyMaxBy_mem Prod.fst ss s with h2 | h2
          · rw [h2]; simp
          · exact List.mem_cons_of_mem s h2
        have hb := hband2 _ hmem
        constructor
        · have h1 : 0 ≤ p.height * (2 / 10) := mul_nonneg hh (by norm_num)
          linarith [hb.2]
        · linarith [hb.1]

/-- Any y produced by the numeral-pattern heuristic lies within the page. -/
lemma numeralBoundary_bounds (p : PPage) (hh : 0 ≤ p.height)
    (hl : ∀ l ∈ p.lines, 0 ≤ l.y ∧ l.y ≤ p.height) {y : ℚ}
    (h : numeralBoundary p = some y) : 0 ≤ y ∧ y ≤ p.height := by
  unfold numeralBoundary at h
  split at h
  · simp at h
  next c cs hc =>
    have hy : y = max (p.height * (4 / 10)) (listMin c cs - 5) := by
      simpa using h.symm
    have hmem : listMin c cs ∈ c :: cs := by
      rcases listMin_mem cs c with h2 | h2
      · rw [h2]; simp
      · exact List.mem_cons_of_mem c h2
    rw [← hc] at hmem
    obtain ⟨l, hlm, hly⟩ := footnoteCandidates_mem p _ hmem
    have hb := hl l hlm
    have h1 : 0 ≤ p.height * (4 / 10) := mul_nonneg hh (by norm_num)
    constructor
    · rw [hy]
      exact le_trans h1 (le_max_left _ _)
    · rw [hy]
      apply max_le
      · linarith
      · rw [← hly] at hb
        linarith [hb.2]

/-- Any y produced by the font-size heuristic lies within the page. -/
lemma fontBoundary_bounds (p : PPage) (hh : 0 ≤ p.height)
    (hl : ∀ l ∈ p.lines, 0 ≤ l.y ∧ l.y ≤ p.height) {y : ℚ}
    (h : fontBoundary p = some y) : 0 ≤ y ∧ y ≤ p.height := by
  unfold fontBoundary at h
  split_ifs at h
  · split at h
    · simp at h
    next a as_ havg =>
      split_ifs at h
      · split at h
        next q qs hget =>
          have hy : y = max (p.height * (4 / 10)) (listMin q qs - 5) := by
            simpa using h.symm
          have hpair := alGetQ_mem hget
          have hmin : listMin q qs ∈ q :: qs := by
            rcases listMin_mem qs q with h2 | h2
            · rw [h2]; simp
            · exact List.mem_cons_of_mem q h2
          obtain ⟨l, hlm, hly⟩ :=
            fontSizesAList_mem p _ hpair (listMin q qs) hmin
          have hb := hl l hlm
          have h1 : 0 ≤ p.height * (4 / 10) := mul_nonneg hh (by norm_num)
          constructor
          · rw [hy]
            exact le_trans h1 (le_max_left _ _)
          · rw [hy]
            apply max_le
            · linarith
            · rw [← hly] at hb
              linarith [hb.2]
        next hget => simp at h
        next hget => simp at h

/-- C8: for every page whose lines' y-coordinates lie within
`[0, page.height]` (drawings likewise), the detected boundary lies within
`[0, page.height]` on every branch of the decision cascade. -/
theorem c8_boundary_within_page (p : PPage) (hh : 0 ≤ p.height)
    (hl : ∀ l ∈ p.lines, 0 ≤ l.y ∧ l.y ≤ p.height)
    (hd : ∀ d ∈ p.drawings,
      (0 ≤ d.y0 ∧ d.y0 ≤ p.height) ∧ (0 ≤ d.y1 ∧ d.y1 ≤ p.height)) :
    0 ≤ detect_footnote_boundary p ∧ detect_footnote_boundary p ≤ p.height := by
  unfold detect_footnote_boundary
  cases hr : ruleBoundary p with
  | some y => simpa using ruleBoundary_bounds p hh hr
  | none =>
    cases hn : numeralBoundary p with
    | some y => simpa using numeralBoundary_bounds p hh hl hn
    | none =>
      cases hf : fontBoundary p with
      | some y => simpa using fontBoundary_bounds p hh hl hf
      | none =>
        have h1 : 0 ≤ p.height * (6 / 10) := mul_nonneg hh (by norm_num)
        constructor
        · simpa using h1
        · simp only []
          linarith

/-- C8 witness: a concrete page of height 200 gets a boundary within
`[0, 200]`. -/
theorem c8_boundary_within_page_witness :
    0 ≤ detect_footnote_boundary
        (PPage.mk 200 80 [] [PLine.mk 20 [PSpan.mk "t".data 10]]) ∧
      detect_footnote_boundary
        (PPage.mk 200 80 [] [PLine.mk 20 [PSpan.mk "t".data 10]]) ≤ 200 :=
  c8_boundary_within_page
    (PPage.mk 200 80 [] [PLine.mk 20 [PSpan.mk "t".data 10]])
    (by decide) (by decide) (by decide)

end PdfRtf
